import Mathlib

/-!
Shallow embedding of the `addressable_queue` crate (src/fifo.rs, src/lru.rs).

The Rust `fifo::Queue` owns a `VecDeque<Arc<Item<K,V>>>` (`items`) and a
`HashMap<K, Arc<Item<K,V>>>` (`pointers`), where each `Item` holds an
immutable `key` and a `Mutex<Option<V>>` value slot shared between the two
views.  We model the shared `Arc`s with an arena: entry `id` lives at index
`id` of `arena : List (K × Option V)`; `items` stores ids front-first
(`VecDeque` head = list head); `pointers` is an association list with the
semantics of `HashMap` (insert overwrites the entry at a key, remove erases
it, lookup finds it).  `Arc::new` at insertion time corresponds to
allocating a fresh arena slot at index `arena.length`.
-/

namespace AQ

variable {K V : Type}

/-- Lookup in the pointer map: the id mapped at key `k`, if any
(`HashMap::get` / the lookup side of `HashMap::remove`). -/
def lookupMap [DecidableEq K] : List (K × Nat) → K → Option Nat
  | [], _ => none
  | p :: rest, k => if p.1 = k then some p.2 else lookupMap rest k

/-- Remove the entry at key `k` from the pointer map (`HashMap::remove`).
On the maps that arise from the queue operations each key occurs at most
once, so removing every occurrence coincides with `HashMap` semantics. -/
def mapErase [DecidableEq K] : List (K × Nat) → K → List (K × Nat)
  | [], _ => []
  | p :: rest, k => if p.1 = k then mapErase rest k else p :: mapErase rest k

/-- Insert/overwrite the entry at key `k` (`HashMap::insert`). -/
def mapInsert [DecidableEq K] (m : List (K × Nat)) (k : K) (id : Nat) :
    List (K × Nat) :=
  (k, id) :: mapErase m k

/-- Clear the value slot of arena entry `id` (the `mem::swap`/extraction that
tombstones the shared `Item`, leaving its key in place). -/
def clearVal : List (K × Option V) → Nat → List (K × Option V)
  | [], _ => []
  | e :: rest, 0 => (e.1, none) :: rest
  | e :: rest, n + 1 => e :: clearVal rest n

/-- The addressable FIFO queue (`fifo::Queue<K, V>`). -/
structure Queue (K V : Type) where
  arena : List (K × Option V)
  items : List Nat
  pointers : List (K × Nat)
deriving DecidableEq

/-- Model of `Queue::new`. -/
def Queue.new : Queue K V := ⟨[], [], []⟩

/-- Model of `Queue::len`: the size of the pointer map. -/
def Queue.len (q : Queue K V) : Nat := q.pointers.length

/-- Model of `Queue::insert`: allocate a fresh shared entry, push it at the back of
`items`, and register it in `pointers` (overwriting any previous entry at
that key; the previous entry itself is not touched). -/
def Queue.insert [DecidableEq K] (q : Queue K V) (k : K) (v : V) : Queue K V :=
  { arena := q.arena ++ [(k, some v)]
    items := q.items ++ [q.arena.length]
    pointers := mapInsert q.pointers k q.arena.length }

/-- Model of `Queue::insert_head`: like `insert` but the new entry is pushed at the
front of `items`. -/
def Queue.insertHead [DecidableEq K] (q : Queue K V) (k : K) (v : V) :
    Queue K V :=
  { arena := q.arena ++ [(k, some v)]
    items := q.arena.length :: q.items
    pointers := mapInsert q.pointers k q.arena.length }

/-- Model of `Queue::new_with`: fold `insert` over the given pairs. -/
def Queue.newWith [DecidableEq K] (pairs : List (K × V)) : Queue K V :=
  pairs.foldl (fun q p => q.insert p.1 p.2) Queue.new

/-- Model of `Queue::remove_key`: remove the key from the map; if an entry was mapped,
swap its value slot with `None` and return the old value. -/
def Queue.removeKey [DecidableEq K] (q : Queue K V) (k : K) :
    Option V × Queue K V :=
  match lookupMap q.pointers k with
  | some id =>
      let val : Option V :=
        match q.arena[id]? with
        | some e => e.2
        | none => none
      (val, { arena := clearVal q.arena id
              items := q.items
              pointers := mapErase q.pointers k })
  | none => (none, q)

/-- The `while let Some(item) = pop` loop shared by `remove_head` and
`remove_tail`: pop ids one at a time; a tombstoned entry is discarded and
the loop continues; the first live entry has its key removed from the map
and its value extracted (`Arc::try_unwrap` consumes the slot, modelled by
clearing it).  Returns the extracted pair, the arena, the remaining ids and
the map. -/
def popLoop [DecidableEq K] :
    List Nat → List (K × Option V) → List (K × Nat) →
      Option (K × V) × List (K × Option V) × List Nat × List (K × Nat)
  | [], ar, ptr => (none, ar, [], ptr)
  | id :: rest, ar, ptr =>
      match ar[id]? with
      | some (k, some v) => (some (k, v), clearVal ar id, rest, mapErase ptr k)
      | _ => popLoop rest ar ptr

/-- Model of `Queue::remove_head`: run the pop loop from the front of `items`. -/
def Queue.removeHead [DecidableEq K] (q : Queue K V) :
    Option (K × V) × Queue K V :=
  let r := popLoop q.items q.arena q.pointers
  (r.1, ⟨r.2.1, r.2.2.1, r.2.2.2⟩)

/-- Model of `Queue::remove_tail`: `pop_back` repeatedly is the pop loop on the
reversed deque; the surviving ids are reversed back. -/
def Queue.removeTail [DecidableEq K] (q : Queue K V) :
    Option (K × V) × Queue K V :=
  let r := popLoop q.items.reverse q.arena q.pointers
  (r.1, ⟨r.2.1, r.2.2.1.reverse, r.2.2.2⟩)

/-- The `while let Some(pair) = self.remove_head()` drain loop of
`Queue::into_vec`, with explicit fuel.  Each iteration that yields a pair
consumes at least one physical slot, so fuel `q.items.length` never runs
out (the drain lemmas below also establish that the final state has no
items left). -/
def drainHead [DecidableEq K] : Nat → Queue K V → List (K × V) × Queue K V
  | 0, q => ([], q)
  | n + 1, q =>
      match q.removeHead with
      | (none, q2) => ([], q2)
      | (some p, q2) =>
          let r := drainHead n q2
          (p :: r.1, r.2)

/-- Repeated `remove_tail`, with fuel, for the back-to-front observations. -/
def drainTail [DecidableEq K] : Nat → Queue K V → List (K × V) × Queue K V
  | 0, q => ([], q)
  | n + 1, q =>
      match q.removeTail with
      | (none, q2) => ([], q2)
      | (some p, q2) =>
          let r := drainTail n q2
          (p :: r.1, r.2)

/-- Model of `Queue::into_vec`. -/
def Queue.intoVec [DecidableEq K] (q : Queue K V) : List (K × V) :=
  (drainHead q.items.length q).1

/-- The live observation of arena entry `id`: its key/value pair when the
slot is present and not tombstoned. -/
def liveOut (ar : List (K × Option V)) (id : Nat) : Option (K × V) :=
  match ar[id]? with
  | some (k, some v) => some (k, v)
  | _ => none

/-- Number of physical entries in the ordered sequence whose value is
present (non-tombstoned). -/
def liveCount (q : Queue K V) : Nat :=
  q.items.countP (fun id => (liveOut q.arena id).isSome)

/-- The public structural operations of `fifo::Queue`. -/
inductive Op (K V : Type) where
  | ins (k : K) (v : V)
  | insHead (k : K) (v : V)
  | remHead
  | remTail
  | remKey (k : K)
deriving DecidableEq

/-- Apply one public operation to the state. -/
def applyOp [DecidableEq K] (q : Queue K V) : Op K V → Queue K V
  | .ins k v => q.insert k v
  | .insHead k v => q.insertHead k v
  | .remHead => q.removeHead.2
  | .remTail => q.removeTail.2
  | .remKey k => (q.removeKey k).2

/-- Run a sequence of public operations from the empty queue. -/
def run [DecidableEq K] (ops : List (Op K V)) : Queue K V :=
  ops.foldl applyOp Queue.new

/-- Predicate `NoShadow q ops` holds when along the execution of `ops` from `q` no
insert (at either end) ever uses a key that is currently present in the
pointer map — i.e. the run never creates a shadowed duplicate entry. -/
def shadowFree [DecidableEq K] (q : Queue K V) : Op K V → Bool
  | Op.ins k _ => (lookupMap q.pointers k).isNone
  | Op.insHead k _ => (lookupMap q.pointers k).isNone
  | _ => true

def NoShadow [DecidableEq K] : Queue K V → List (Op K V) → Bool
  | _, [] => true
  | q, op :: rest => shadowFree q op && NoShadow (applyOp q op) rest

/-!
The LRU wrapper (src/lru.rs): a `fifo::Queue` plus the recency operation.
-/

/-- Model of `lru::Queue<K, V>`. -/
structure LQueue (K V : Type) where
  inner : Queue K V
deriving DecidableEq

/-- Model of `lru::Queue::new`. -/
def LQueue.new : LQueue K V := ⟨Queue.new⟩

/-- Model of `lru::Queue::insert`: delegates to the inner `insert`. -/
def LQueue.insert [DecidableEq K] (q : LQueue K V) (k : K) (v : V) :
    LQueue K V :=
  ⟨q.inner.insert k v⟩

/-- Model of `lru::Queue::insert_head`.  The body of the source function is
`self.inner.insert(key, value)` — it delegates to the inner tail-`insert`,
not to `insert_head`. -/
def LQueue.insertHead [DecidableEq K] (q : LQueue K V) (k : K) (v : V) :
    LQueue K V :=
  ⟨q.inner.insert k v⟩

/-- Model of `lru::Queue::remove_head`: delegates to the inner `remove_head` (the
source returns the delegated result directly). -/
def LQueue.removeHead [DecidableEq K] (q : LQueue K V) :
    Option (K × V) × LQueue K V :=
  let r := q.inner.removeHead
  (r.1, ⟨r.2⟩)

/-- Model of `lru::Queue::remove_tail`: delegates to the inner `remove_tail`. -/
def LQueue.removeTail [DecidableEq K] (q : LQueue K V) :
    Option (K × V) × LQueue K V :=
  let r := q.inner.removeTail
  (r.1, ⟨r.2⟩)

/-- Model of `lru::Queue::remove_key`: delegates to the inner `remove_key`. -/
def LQueue.removeKey [DecidableEq K] (q : LQueue K V) (k : K) :
    Option V × LQueue K V :=
  let r := q.inner.removeKey k
  (r.1, ⟨r.2⟩)

/-- Model of `lru::Queue::get`: `remove_key` then, if a value was extracted,
re-`insert` the same pair at the tail and return the value.  (The source
hands back a borrow of the extracted value; at the value level that is the
extracted value itself.) -/
def LQueue.get [DecidableEq K] (q : LQueue K V) (k : K) :
    Option V × LQueue K V :=
  match q.inner.removeKey k with
  | (none, q2) => (none, ⟨q2⟩)
  | (some v, q2) => (some v, ⟨Queue.insert q2 k v⟩)

/-! ### Basic lemmas about the pointer map and the arena -/

section MapLemmas

variable [DecidableEq K]

theorem lookupMap_mapErase_self (m : List (K × Nat)) (k : K) :
    lookupMap (mapErase m k) k = none := by
  induction m with
  | nil => rfl
  | cons p rest ih =>
      by_cases h : p.1 = k
      · simpa [mapErase, h] using ih
      · simp [mapErase, h, lookupMap, ih]

theorem lookupMap_mapErase_ne (m : List (K × Nat)) {k k2 : K} (h : k2 ≠ k) :
    lookupMap (mapErase m k) k2 = lookupMap m k2 := by
  induction m with
  | nil => rfl
  | cons p rest ih =>
      by_cases hp : p.1 = k
      · have hne : p.1 ≠ k2 := by
          intro hk
          exact h (hk ▸ hp)
        rw [show mapErase (p :: rest) k = mapErase rest k by
              simp [mapErase, hp],
            ih, lookupMap, if_neg hne]
      · rw [show mapErase (p :: rest) k = p :: mapErase rest k by
              simp [mapErase, hp]]
        by_cases hp2 : p.1 = k2
        · simp [lookupMap, hp2]
        · simp [lookupMap, hp2, ih]

theorem lookupMap_mapInsert_self (m : List (K × Nat)) (k : K) (id : Nat) :
    lookupMap (mapInsert m k id) k = some id := by
  simp [mapInsert, lookupMap]

theorem lookupMap_mapInsert_ne (m : List (K × Nat)) {k k2 : K} (id : Nat)
    (h : k2 ≠ k) :
    lookupMap (mapInsert m k id) k2 = lookupMap m k2 := by
  have : k ≠ k2 := fun hk => h hk.symm
  simp [mapInsert, lookupMap, this, lookupMap_mapErase_ne m h]

theorem mapErase_sublist (m : List (K × Nat)) (k : K) :
    (mapErase m k).Sublist m := by
  induction m with
  | nil => simp [mapErase]
  | cons p rest ih =>
      by_cases hp : p.1 = k
      · simp only [mapErase, if_pos hp]
        exact ih.cons p
      · simp only [mapErase, if_neg hp]
        exact ih.cons₂ p

theorem keysNodup_mapErase {m : List (K × Nat)} (k : K)
    (h : (m.map Prod.fst).Nodup) : ((mapErase m k).map Prod.fst).Nodup :=
  ((mapErase_sublist m k).map Prod.fst).nodup h

theorem keys_mapErase_not_mem (m : List (K × Nat)) (k : K) :
    k ∉ (mapErase m k).map Prod.fst := by
  induction m with
  | nil => simp [mapErase]
  | cons p rest ih =>
      by_cases hp : p.1 = k
      · simpa [mapErase, hp] using ih
      · have : ¬k = p.1 := fun h => hp h.symm
        simp [mapErase, hp, ih, this]

theorem keysNodup_mapInsert {m : List (K × Nat)} (k : K) (id : Nat)
    (h : (m.map Prod.fst).Nodup) :
    ((mapInsert m k id).map Prod.fst).Nodup := by
  simp only [mapInsert, List.map_cons, List.nodup_cons]
  exact ⟨keys_mapErase_not_mem m k, keysNodup_mapErase k h⟩

theorem mem_of_lookupMap_some {m : List (K × Nat)} {k : K} {id : Nat}
    (h : lookupMap m k = some id) : (k, id) ∈ m := by
  induction m with
  | nil => simp [lookupMap] at h
  | cons p rest ih =>
      by_cases hp : p.1 = k
      · simp only [lookupMap, if_pos hp, Option.some.injEq] at h
        have : (k, id) = p := by
          rw [← hp, ← h]
        exact this ▸ List.mem_cons_self p rest
      · simp only [lookupMap, if_neg hp] at h
        exact List.mem_cons_of_mem _ (ih h)

theorem lookupMap_of_mem_of_nodup {m : List (K × Nat)} {k : K} {id : Nat}
    (hmem : (k, id) ∈ m) (hnd : (m.map Prod.fst).Nodup) :
    lookupMap m k = some id := by
  induction m with
  | nil => simp at hmem
  | cons p rest ih =>
      simp only [List.map_cons, List.nodup_cons] at hnd
      rcases List.mem_cons.mp hmem with h | h
      · rw [← h]
        simp [lookupMap]
      · have hne : p.1 ≠ k := by
          intro hk
          exact hnd.1 (hk ▸ (List.mem_map.mpr ⟨(k, id), h, rfl⟩))
        simp [lookupMap, hne, ih h hnd.2]

end MapLemmas

/-! ### Arena lemmas -/

section ArenaLemmas

theorem clearVal_length (ar : List (K × Option V)) (id : Nat) :
    (clearVal ar id).length = ar.length := by
  induction ar generalizing id with
  | nil => rfl
  | cons e rest ih =>
      cases id with
      | zero => simp [clearVal]
      | succ n => simp [clearVal, ih]

theorem clearVal_getElem_ne (ar : List (K × Option V)) {id j : Nat}
    (h : j ≠ id) : (clearVal ar id)[j]? = ar[j]? := by
  induction ar generalizing id j with
  | nil => rfl
  | cons e rest ih =>
      cases id with
      | zero =>
          cases j with
          | zero => exact absurd rfl h
          | succ m => simp [clearVal]
      | succ n =>
          cases j with
          | zero => simp [clearVal]
          | succ m =>
              simp only [clearVal, List.getElem?_cons_succ]
              exact ih (fun hm => h (by rw [hm]))

theorem clearVal_getElem_self (ar : List (K × Option V)) (id : Nat) :
    (clearVal ar id)[id]? = ar[id]?.map (fun e => (e.1, none)) := by
  induction ar generalizing id with
  | nil => rfl
  | cons e rest ih =>
      cases id with
      | zero => simp [clearVal]
      | succ n => simpa [clearVal] using ih n

theorem liveOut_clearVal_self (ar : List (K × Option V)) (id : Nat) :
    liveOut (clearVal ar id) id = none := by
  unfold liveOut
  rw [clearVal_getElem_self]
  cases ar[id]? with
  | none => rfl
  | some e => rfl

theorem liveOut_clearVal_ne (ar : List (K × Option V)) {id j : Nat}
    (h : j ≠ id) : liveOut (clearVal ar id) j = liveOut ar j := by
  unfold liveOut
  rw [clearVal_getElem_ne ar h]

end ArenaLemmas

/-! ### The pop loop -/

section PopLoopLemmas

variable [DecidableEq K]

theorem popLoop_cons_dead {ar : List (K × Option V)} {id : Nat}
    (rest : List Nat) (ptr : List (K × Nat)) (h : liveOut ar id = none) :
    popLoop (id :: rest) ar ptr = popLoop rest ar ptr := by
  unfold liveOut at h
  rcases hg : ar[id]? with _ | ⟨k, _ | v⟩ <;>
    simp only [popLoop, hg] <;> rw [hg] at h <;> simp at h

theorem popLoop_cons_live {ar : List (K × Option V)} {id : Nat} {k : K} {v : V}
    (rest : List Nat) (ptr : List (K × Nat)) (h : liveOut ar id = some (k, v)) :
    popLoop (id :: rest) ar ptr =
      (some (k, v), clearVal ar id, rest, mapErase ptr k) := by
  unfold liveOut at h
  rcases hg : ar[id]? with _ | ⟨k2, _ | v2⟩ <;> rw [hg] at h <;>
    simp only [popLoop, hg] <;> simp at h
  rw [h.1, h.2]

theorem popLoop_all_dead {ar : List (K × Option V)} {its : List Nat}
    (ptr : List (K × Nat)) (h : ∀ id ∈ its, liveOut ar id = none) :
    popLoop its ar ptr = (none, ar, [], ptr) := by
  induction its with
  | nil => rfl
  | cons id rest ih =>
      rw [popLoop_cons_dead rest ptr (h id (by simp))]
      exact ih (fun j hj => h j (by simp [hj]))

theorem all_dead_of_popLoop_none {ar : List (K × Option V)} {its : List Nat}
    {ptr : List (K × Nat)} (h : (popLoop its ar ptr).1 = none) :
    ∀ id ∈ its, liveOut ar id = none := by
  induction its with
  | nil => simp
  | cons id rest ih =>
      intro j hj
      rcases hl : liveOut ar id with _ | ⟨k, v⟩
      · rw [popLoop_cons_dead rest ptr hl] at h
        rcases List.mem_cons.mp hj with hj0 | hj1
        · rw [hj0]; exact hl
        · exact ih h j hj1
      · rw [popLoop_cons_live rest ptr hl] at h
        simp at h

end PopLoopLemmas

/-! ### Drain lemmas: repeated head/tail removal observes the live entries in
physical order -/

section DrainLemmas

variable [DecidableEq K]

theorem drainHead_spec (its : List Nat) :
    ∀ (fuel : Nat) (ar : List (K × Option V)) (ptr : List (K × Nat)),
      its.Nodup → its.length ≤ fuel →
      (drainHead fuel (Queue.mk ar its ptr)).1 = its.filterMap (liveOut ar) ∧
      (drainHead fuel (Queue.mk ar its ptr)).2.items = [] := by
  induction its with
  | nil =>
      intro fuel ar ptr _ _
      cases fuel with
      | zero => exact ⟨rfl, rfl⟩
      | succ n =>
          constructor
          · simp [drainHead, Queue.removeHead, popLoop]
          · simp [drainHead, Queue.removeHead, popLoop]
  | cons id rest ih =>
      intro fuel ar ptr hnd hlen
      cases fuel with
      | zero => simp at hlen
      | succ n =>
          have hid : id ∉ rest := (List.nodup_cons.mp hnd).1
          have hndr : rest.Nodup := (List.nodup_cons.mp hnd).2
          rcases hl : liveOut ar id with _ | ⟨k, v⟩
          · have hq : (Queue.mk ar (id :: rest) ptr).removeHead =
                (Queue.mk ar rest ptr).removeHead := by
              simp only [Queue.removeHead, popLoop_cons_dead rest ptr hl]
            have heq : drainHead (n + 1) (Queue.mk ar (id :: rest) ptr) =
                drainHead (n + 1) (Queue.mk ar rest ptr) := by
              simp only [drainHead]
              rw [hq]
            rw [heq, List.filterMap_cons_none hl]
            exact ih (n + 1) ar ptr hndr (by simp at hlen; omega)
          · have hq : (Queue.mk ar (id :: rest) ptr).removeHead =
                (some (k, v),
                  Queue.mk (clearVal ar id) rest (mapErase ptr k)) := by
              simp only [Queue.removeHead, popLoop_cons_live rest ptr hl]
            have heq : drainHead (n + 1) (Queue.mk ar (id :: rest) ptr) =
                ((k, v) ::
                    (drainHead n
                      (Queue.mk (clearVal ar id) rest (mapErase ptr k))).1,
                  (drainHead n
                    (Queue.mk (clearVal ar id) rest (mapErase ptr k))).2) := by
              simp only [drainHead]
              rw [hq]
            have hrec := ih n (clearVal ar id) (mapErase ptr k) hndr
              (Nat.le_of_succ_le_succ hlen)
            have hcongr : rest.filterMap (liveOut (clearVal ar id)) =
                rest.filterMap (liveOut ar) :=
              List.filterMap_congr
                (fun a ha => liveOut_clearVal_ne ar (fun he => hid (he ▸ ha)))
            constructor
            · rw [heq, List.filterMap_cons_some hl]
              simp only [hrec.1, hcongr]
            · rw [heq]
              exact hrec.2

theorem drainTail_spec (rits : List Nat) :
    ∀ (fuel : Nat) (ar : List (K × Option V)) (ptr : List (K × Nat)),
      rits.Nodup → rits.length ≤ fuel →
      (drainTail fuel (Queue.mk ar rits.reverse ptr)).1 =
        rits.filterMap (liveOut ar) ∧
      (drainTail fuel (Queue.mk ar rits.reverse ptr)).2.items = [] := by
  induction rits with
  | nil =>
      intro fuel ar ptr _ _
      cases fuel with
      | zero => exact ⟨rfl, rfl⟩
      | succ n =>
          constructor
          · simp [drainTail, Queue.removeTail, popLoop]
          · simp [drainTail, Queue.removeTail, popLoop]
  | cons id rest ih =>
      intro fuel ar ptr hnd hlen
      cases fuel with
      | zero => simp at hlen
      | succ n =>
          have hid : id ∉ rest := (List.nodup_cons.mp hnd).1
          have hndr : rest.Nodup := (List.nodup_cons.mp hnd).2
          rcases hl : liveOut ar id with _ | ⟨k, v⟩
          · have hq : (Queue.mk ar (id :: rest).reverse ptr).removeTail =
                (Queue.mk ar rest.reverse ptr).removeTail := by
              simp only [Queue.removeTail, List.reverse_reverse]
              rw [popLoop_cons_dead rest ptr hl]
            have heq : drainTail (n + 1) (Queue.mk ar (id :: rest).reverse ptr) =
                drainTail (n + 1) (Queue.mk ar rest.reverse ptr) := by
              simp only [drainTail]
              rw [hq]
            rw [heq, List.filterMap_cons_none hl]
            exact ih (n + 1) ar ptr hndr (by simp at hlen; omega)
          · have hq : (Queue.mk ar (id :: rest).reverse ptr).removeTail =
                (some (k, v),
                  Queue.mk (clearVal ar id) rest.reverse (mapErase ptr k)) := by
              simp only [Queue.removeTail, List.reverse_reverse]
              rw [popLoop_cons_live rest ptr hl]
            have heq : drainTail (n + 1) (Queue.mk ar (id :: rest).reverse ptr) =
                ((k, v) ::
                    (drainTail n (Queue.mk (clearVal ar id) rest.reverse
                      (mapErase ptr k))).1,
                  (drainTail n (Queue.mk (clearVal ar id) rest.reverse
                    (mapErase ptr k))).2) := by
              simp only [drainTail]
              rw [hq]
            have hrec := ih n (clearVal ar id) (mapErase ptr k) hndr
              (Nat.le_of_succ_le_succ hlen)
            have hcongr : rest.filterMap (liveOut (clearVal ar id)) =
                rest.filterMap (liveOut ar) :=
              List.filterMap_congr
                (fun a ha => liveOut_clearVal_ne ar (fun he => hid (he ▸ ha)))
            constructor
            · rw [heq, List.filterMap_cons_some hl]
              simp only [hrec.1, hcongr]
            · rw [heq]
              exact hrec.2

/-- Lemma `drainTail_spec` re-stated for a queue whose item list is given
directly. -/
theorem drainTail_items (its : List Nat) (fuel : Nat)
    (ar : List (K × Option V)) (ptr : List (K × Nat))
    (hnd : its.Nodup) (hlen : its.length ≤ fuel) :
    (drainTail fuel (Queue.mk ar its ptr)).1 =
      its.reverse.filterMap (liveOut ar) ∧
    (drainTail fuel (Queue.mk ar its ptr)).2.items = [] := by
  have h := drainTail_spec its.reverse fuel ar ptr (by simpa using hnd)
    (by simpa using hlen)
  simpa using h

/-- On a fully live slice of the arena, draining observes exactly the
pairs: if the live observation at id `s + j` (for `j < ps.length`) is the
`j`-th pair, the range of ids filters to `ps`. -/
theorem filterMap_liveOut_slice (ps : List (K × V)) :
    ∀ (s : Nat) (ar : List (K × Option V)),
      (∀ j, j < ps.length → liveOut ar (s + j) = ps[j]?) →
      (List.range' s ps.length).filterMap (liveOut ar) = ps := by
  induction ps with
  | nil => intro s ar _; rfl
  | cons p rest ih =>
      intro s ar h
      have h0 : liveOut ar s = some p := by
        have := h 0 (by simp)
        rw [Nat.add_zero] at this
        simpa using this
      simp only [List.length_cons]
      rw [List.range'_succ, List.filterMap_cons_some h0]
      congr 1
      refine ih (s + 1) ar (fun j hj => ?_)
      have := h (j + 1) (by simpa using Nat.succ_lt_succ hj)
      rw [show s + 1 + j = s + (j + 1) by omega]
      rw [this]
      simp

/-- The arena built by pure tail inserts observes exactly the input pairs. -/
theorem liveOut_map_live (pairs : List (K × V)) (j : Nat) :
    liveOut (pairs.map (fun p => (p.1, some p.2))) j = pairs[j]? := by
  unfold liveOut
  rcases h : pairs[j]? with _ | p
  · rw [List.getElem?_map, h]
    rfl
  · rw [List.getElem?_map, h]
    rfl

/-- A slice of dead/absent ids contributes nothing to a drain. -/
theorem filterMap_liveOut_dead (len : Nat) :
    ∀ (s : Nat) (ar : List (K × Option V)),
      (∀ j, j < len → liveOut ar (s + j) = none) →
      (List.range' s len).filterMap (liveOut ar) = [] := by
  induction len with
  | zero => intro s ar _; rfl
  | succ n ih =>
      intro s ar h
      have h0 : liveOut ar s = none := by
        have := h 0 (by omega)
        rwa [Nat.add_zero] at this
      rw [List.range'_succ, List.filterMap_cons_none h0]
      refine ih (s + 1) ar (fun j hj => ?_)
      have := h (j + 1) (by omega)
      rwa [show s + 1 + j = s + (j + 1) by omega]

end DrainLemmas

/-! ### The state built by `new_with` / repeated tail inserts -/

section InsertAllLemmas

variable [DecidableEq K]

/-- Folding `insert` over a list of pairs from an arbitrary starting state
(the loop body of `new_with`). -/
def insertAll (q : Queue K V) (ps : List (K × V)) : Queue K V :=
  ps.foldl (fun q p => q.insert p.1 p.2) q

theorem newWith_eq_insertAll (pairs : List (K × V)) :
    Queue.newWith pairs = insertAll Queue.new pairs := rfl

theorem insertAll_cons (q : Queue K V) (p : K × V) (ps : List (K × V)) :
    insertAll q (p :: ps) = insertAll (q.insert p.1 p.2) ps := rfl

theorem insertAll_arena (ps : List (K × V)) :
    ∀ q : Queue K V, (insertAll q ps).arena =
      q.arena ++ ps.map (fun p => (p.1, some p.2)) := by
  induction ps with
  | nil => intro q; simp [insertAll]
  | cons p rest ih =>
      intro q
      rw [insertAll_cons, ih]
      simp [Queue.insert]

theorem insertAll_items (ps : List (K × V)) :
    ∀ q : Queue K V, (insertAll q ps).items =
      q.items ++ List.range' q.arena.length ps.length := by
  induction ps with
  | nil => intro q; simp [insertAll]
  | cons p rest ih =>
      intro q
      rw [insertAll_cons, ih]
      simp [Queue.insert, List.range'_succ]

theorem insertAll_lookup_notmem (ps : List (K × V)) :
    ∀ (q : Queue K V) (k : K), (∀ p ∈ ps, p.1 ≠ k) →
      lookupMap (insertAll q ps).pointers k = lookupMap q.pointers k := by
  induction ps with
  | nil => intro q k _; rfl
  | cons p rest ih =>
      intro q k h
      rw [insertAll_cons,
        ih _ k (fun p2 hp => h p2 (List.mem_cons_of_mem _ hp))]
      exact lookupMap_mapInsert_ne _ _
        (Ne.symm (h p (List.mem_cons_self p rest)))

theorem insertAll_lookup_nodup (ps : List (K × V)) :
    ∀ (q : Queue K V) (i : Nat) (hi : i < ps.length),
      (ps.map Prod.fst).Nodup →
      lookupMap (insertAll q ps).pointers ((ps.get ⟨i, hi⟩).1) =
        some (q.arena.length + i) := by
  induction ps with
  | nil => intro q i hi _; simp at hi
  | cons p rest ih =>
      intro q i hi hnd
      simp only [List.map_cons, List.nodup_cons] at hnd
      cases i with
      | zero =>
          rw [insertAll_cons]
          have hne : ∀ p2 ∈ rest, p2.1 ≠ p.1 := by
            intro p2 hp2 he
            exact hnd.1 (he ▸ List.mem_map.mpr ⟨p2, hp2, rfl⟩)
          show lookupMap (insertAll (q.insert p.1 p.2) rest).pointers p.1 =
            some (q.arena.length + 0)
          rw [insertAll_lookup_notmem rest _ _ hne]
          have := lookupMap_mapInsert_self q.pointers p.1 q.arena.length
          simpa using this
      | succ j =>
          rw [insertAll_cons]
          have hj : j < rest.length := by simpa using Nat.lt_of_succ_lt_succ hi
          have := ih (q.insert p.1 p.2) j hj hnd.2
          have hlen : (q.insert p.1 p.2).arena.length = q.arena.length + 1 := by
            simp [Queue.insert]
          rw [hlen] at this
          rw [show q.arena.length + (j + 1) = q.arena.length + 1 + j by omega]
          exact this

end InsertAllLemmas

/-! ### Reachability invariants -/

section Invariants

variable [DecidableEq K]

/-- Structural invariant of a queue state, phrased on the raw triple so the
pop loop can be handled by list induction: item ids are distinct and in
range, map keys are distinct, and every mapped id is a live member of the
item list whose arena key agrees with its map key. -/
def TInv (ar : List (K × Option V)) (its : List Nat)
    (ptr : List (K × Nat)) : Prop :=
  its.Nodup ∧ (∀ id ∈ its, id < ar.length) ∧
    (ptr.map Prod.fst).Nodup ∧
    ∀ k id, lookupMap ptr k = some id →
      id ∈ its ∧ ∃ v, ar[id]? = some (k, some v)

/-- Every live item is reachable through the map at its own key.  This holds
on runs that never tail/head-insert a key that is currently present. -/
def TSync (ar : List (K × Option V)) (its : List Nat)
    (ptr : List (K × Nat)) : Prop :=
  ∀ id ∈ its, ∀ k v, ar[id]? = some (k, some v) → lookupMap ptr k = some id

def Inv (q : Queue K V) : Prop := TInv q.arena q.items q.pointers

def Sync (q : Queue K V) : Prop := TSync q.arena q.items q.pointers

theorem liveOut_eq_some {ar : List (K × Option V)} {id : Nat} {k : K}
    {v : V} : liveOut ar id = some (k, v) ↔ ar[id]? = some (k, some v) := by
  unfold liveOut
  rcases hg : ar[id]? with _ | ⟨k2, _ | v2⟩ <;> simp [hg]

theorem TInv_tail_dead {ar : List (K × Option V)} {id : Nat} {rest : List Nat}
    {ptr : List (K × Nat)} (h : TInv ar (id :: rest) ptr)
    (hl : liveOut ar id = none) : TInv ar rest ptr := by
  obtain ⟨hnd, hlt, hknd, hsound⟩ := h
  refine ⟨(List.nodup_cons.mp hnd).2,
    fun j hj => hlt j (List.mem_cons_of_mem _ hj), hknd, ?_⟩
  intro k id0 hlk
  obtain ⟨hm, v, hv⟩ := hsound k id0 hlk
  rcases List.mem_cons.mp hm with he | hm2
  · exfalso
    rw [he] at hv
    rw [liveOut_eq_some.mpr hv] at hl
    cases hl
  · exact ⟨hm2, v, hv⟩

theorem TInv_tail_live {ar : List (K × Option V)} {id : Nat} {rest : List Nat}
    {ptr : List (K × Nat)} {k : K} {v : V} (h : TInv ar (id :: rest) ptr)
    (hl : liveOut ar id = some (k, v)) :
    TInv (clearVal ar id) rest (mapErase ptr k) := by
  obtain ⟨hnd, hlt, hknd, hsound⟩ := h
  refine ⟨(List.nodup_cons.mp hnd).2, ?_, keysNodup_mapErase k hknd, ?_⟩
  · intro j hj
    rw [clearVal_length]
    exact hlt j (List.mem_cons_of_mem _ hj)
  · intro k2 id2 hlk
    by_cases hk2 : k2 = k
    · rw [hk2, lookupMap_mapErase_self] at hlk
      cases hlk
    · rw [lookupMap_mapErase_ne ptr hk2] at hlk
      obtain ⟨hm, v2, hv2⟩ := hsound k2 id2 hlk
      have hne : id2 ≠ id := by
        intro he
        rw [he] at hv2
        rw [liveOut_eq_some.mpr hv2] at hl
        simp at hl
        exact hk2 hl.1
      refine ⟨?_, v2, ?_⟩
      · rcases List.mem_cons.mp hm with he | hm2
        · exact absurd he hne
        · exact hm2
      · rw [clearVal_getElem_ne ar hne]
        exact hv2

theorem TSync_tail_dead {ar : List (K × Option V)} {id : Nat}
    {rest : List Nat} {ptr : List (K × Nat)}
    (h : TSync ar (id :: rest) ptr) : TSync ar rest ptr :=
  fun id0 hm => h id0 (List.mem_cons_of_mem _ hm)

theorem TSync_tail_live {ar : List (K × Option V)} {id : Nat}
    {rest : List Nat} {ptr : List (K × Nat)} {k : K} {v : V}
    (hinv : TInv ar (id :: rest) ptr) (h : TSync ar (id :: rest) ptr)
    (hl : liveOut ar id = some (k, v)) :
    TSync (clearVal ar id) rest (mapErase ptr k) := by
  intro id0 hm k0 v0 hv0
  have hid : id ∉ rest := (List.nodup_cons.mp hinv.1).1
  have hne : id0 ≠ id := fun he => hid (he ▸ hm)
  rw [clearVal_getElem_ne ar hne] at hv0
  have hlk0 := h id0 (List.mem_cons_of_mem _ hm) k0 v0 hv0
  have hk0 : k0 ≠ k := by
    intro he
    have hlk := h id (List.mem_cons_self id rest) k v (liveOut_eq_some.mp hl)
    rw [he, hlk] at hlk0
    exact hne (Option.some.inj hlk0).symm
  rw [lookupMap_mapErase_ne ptr hk0]
  exact hlk0

theorem popLoop_TInv (its : List Nat) :
    ∀ (ar : List (K × Option V)) (ptr : List (K × Nat)), TInv ar its ptr →
      TInv (popLoop its ar ptr).2.1 (popLoop its ar ptr).2.2.1
        (popLoop its ar ptr).2.2.2 := by
  induction its with
  | nil => intro ar ptr h; exact h
  | cons id rest ih =>
      intro ar ptr h
      rcases hl : liveOut ar id with _ | ⟨k, v⟩
      · rw [popLoop_cons_dead rest ptr hl]
        exact ih ar ptr (TInv_tail_dead h hl)
      · rw [popLoop_cons_live rest ptr hl]
        exact TInv_tail_live h hl

theorem popLoop_TSync (its : List Nat) :
    ∀ (ar : List (K × Option V)) (ptr : List (K × Nat)),
      TInv ar its ptr → TSync ar its ptr →
      TSync (popLoop its ar ptr).2.1 (popLoop its ar ptr).2.2.1
        (popLoop its ar ptr).2.2.2 := by
  induction its with
  | nil => intro ar ptr _ h; exact h
  | cons id rest ih =>
      intro ar ptr hinv h
      rcases hl : liveOut ar id with _ | ⟨k, v⟩
      · rw [popLoop_cons_dead rest ptr hl]
        exact ih ar ptr (TInv_tail_dead hinv hl) (TSync_tail_dead h)
      · rw [popLoop_cons_live rest ptr hl]
        exact TSync_tail_live hinv h hl

theorem TInv_reverse {ar : List (K × Option V)} {its : List Nat}
    {ptr : List (K × Nat)} (h : TInv ar its ptr) :
    TInv ar its.reverse ptr := by
  obtain ⟨a, b, c, d⟩ := h
  refine ⟨by simpa using a, fun id hm => b id (by simpa using hm), c, ?_⟩
  intro k id hlk
  obtain ⟨hm, hv⟩ := d k id hlk
  exact ⟨by simpa using hm, hv⟩

theorem TSync_reverse {ar : List (K × Option V)} {its : List Nat}
    {ptr : List (K × Nat)} (h : TSync ar its ptr) :
    TSync ar its.reverse ptr :=
  fun id hm => h id (by simpa using hm)

theorem Inv_new : Inv (Queue.new : Queue K V) := by
  refine ⟨List.nodup_nil, ?_, List.nodup_nil, ?_⟩
  · intro id hm
    cases hm
  · intro k id h
    cases h

theorem Inv_insert (q : Queue K V) (k : K) (v : V) (h : Inv q) :
    Inv (q.insert k v) := by
  obtain ⟨hnd, hlt, hknd, hsound⟩ := h
  have hn : q.arena.length ∉ q.items := fun hm => absurd (hlt _ hm) (lt_irrefl _)
  refine ⟨?_, ?_, ?_, ?_⟩
  · show (q.items ++ [q.arena.length]).Nodup
    simp [List.nodup_append, hnd, hn]
  · intro id hm
    have hm2 : id ∈ q.items ++ [q.arena.length] := hm
    show id < (q.arena ++ [(k, some v)]).length
    simp only [List.length_append, List.length_cons, List.length_nil]
    rcases List.mem_append.mp hm2 with hmi | hml
    · have := hlt id hmi; omega
    · simp at hml; omega
  · exact keysNodup_mapInsert k q.arena.length hknd
  · intro k2 id hlk
    have hlk2 : lookupMap (mapInsert q.pointers k q.arena.length) k2 =
      some id := hlk
    show id ∈ q.items ++ [q.arena.length] ∧
      ∃ v2, (q.arena ++ [(k, some v)])[id]? = some (k2, some v2)
    by_cases hk : k2 = k
    · subst hk
      rw [lookupMap_mapInsert_self] at hlk2
      obtain rfl : id = q.arena.length := (Option.some.inj hlk2).symm
      refine ⟨by simp, v, ?_⟩
      rw [List.getElem?_append_right (le_refl _)]
      simp
    · rw [lookupMap_mapInsert_ne _ _ hk] at hlk2
      obtain ⟨hm, v2, hv2⟩ := hsound k2 id hlk2
      refine ⟨List.mem_append_left _ hm, v2, ?_⟩
      rw [List.getElem?_append_left (hlt id hm)]
      exact hv2

theorem Inv_insertHead (q : Queue K V) (k : K) (v : V) (h : Inv q) :
    Inv (q.insertHead k v) := by
  obtain ⟨hnd, hlt, hknd, hsound⟩ := h
  have hn : q.arena.length ∉ q.items := fun hm => absurd (hlt _ hm) (lt_irrefl _)
  refine ⟨?_, ?_, ?_, ?_⟩
  · show (q.arena.length :: q.items).Nodup
    exact List.nodup_cons.mpr ⟨hn, hnd⟩
  · intro id hm
    have hm2 : id ∈ q.arena.length :: q.items := hm
    show id < (q.arena ++ [(k, some v)]).length
    simp only [List.length_append, List.length_cons, List.length_nil]
    rcases List.mem_cons.mp hm2 with hml | hmi
    · omega
    · have := hlt id hmi; omega
  · exact keysNodup_mapInsert k q.arena.length hknd
  · intro k2 id hlk
    have hlk2 : lookupMap (mapInsert q.pointers k q.arena.length) k2 =
      some id := hlk
    show id ∈ q.arena.length :: q.items ∧
      ∃ v2, (q.arena ++ [(k, some v)])[id]? = some (k2, some v2)
    by_cases hk : k2 = k
    · subst hk
      rw [lookupMap_mapInsert_self] at hlk2
      obtain rfl : id = q.arena.length := (Option.some.inj hlk2).symm
      refine ⟨by simp, v, ?_⟩
      rw [List.getElem?_append_right (le_refl _)]
      simp
    · rw [lookupMap_mapInsert_ne _ _ hk] at hlk2
      obtain ⟨hm, v2, hv2⟩ := hsound k2 id hlk2
      refine ⟨List.mem_cons_of_mem _ hm, v2, ?_⟩
      rw [List.getElem?_append_left (hlt id hm)]
      exact hv2

theorem Inv_removeKey (q : Queue K V) (k : K) (h : Inv q) :
    Inv (q.removeKey k).2 := by
  cases hlk : lookupMap q.pointers k with
  | none =>
      have he : (q.removeKey k).2 = q := by
        simp [Queue.removeKey, hlk]
      rw [he]
      exact h
  | some id =>
      have he : (q.removeKey k).2 =
          ⟨clearVal q.arena id, q.items, mapErase q.pointers k⟩ := by
        simp [Queue.removeKey, hlk]
      rw [he]
      obtain ⟨hnd, hlt, hknd, hsound⟩ := h
      refine ⟨hnd, ?_, keysNodup_mapErase k hknd, ?_⟩
      · intro j hj
        show j < (clearVal q.arena id).length
        rw [clearVal_length]
        exact hlt j hj
      · intro k2 id2 hlk2
        by_cases hk2 : k2 = k
        · rw [hk2, lookupMap_mapErase_self] at hlk2
          cases hlk2
        · rw [lookupMap_mapErase_ne _ hk2] at hlk2
          obtain ⟨hm2, v2, hv2⟩ := hsound k2 id2 hlk2
          obtain ⟨hm0, v0, hv0⟩ := hsound k id hlk
          have hne : id2 ≠ id := by
            intro he2
            rw [he2, hv0] at hv2
            simp at hv2
            exact hk2 hv2.1.symm
          exact ⟨hm2, v2, by rw [clearVal_getElem_ne _ hne]; exact hv2⟩

theorem Inv_removeHead (q : Queue K V) (h : Inv q) : Inv q.removeHead.2 :=
  popLoop_TInv q.items q.arena q.pointers h

theorem Inv_removeTail (q : Queue K V) (h : Inv q) : Inv q.removeTail.2 :=
  TInv_reverse
    (popLoop_TInv q.items.reverse q.arena q.pointers (TInv_reverse h))

theorem Inv_applyOp (q : Queue K V) (op : Op K V) (h : Inv q) :
    Inv (applyOp q op) := by
  cases op with
  | ins k v => exact Inv_insert q k v h
  | insHead k v => exact Inv_insertHead q k v h
  | remHead => exact Inv_removeHead q h
  | remTail => exact Inv_removeTail q h
  | remKey k => exact Inv_removeKey q k h

theorem Inv_foldl (ops : List (Op K V)) :
    ∀ q, Inv q → Inv (List.foldl applyOp q ops) := by
  induction ops with
  | nil => intro q h; exact h
  | cons op rest ih => intro q h; exact ih (applyOp q op) (Inv_applyOp q op h)

theorem Inv_run (ops : List (Op K V)) : Inv (run ops) :=
  Inv_foldl ops Queue.new Inv_new

theorem Sync_new : Sync (Queue.new : Queue K V) := by
  intro id hm
  cases hm

theorem Sync_insert (q : Queue K V) (k : K) (v : V) (hinv : Inv q)
    (hfresh : lookupMap q.pointers k = none) (hs : Sync q) :
    Sync (q.insert k v) := by
  obtain ⟨hnd, hlt, hknd, hsound⟩ := hinv
  intro id hm k2 v2 hv2
  have hm2 : id ∈ q.items ++ [q.arena.length] := hm
  show lookupMap (mapInsert q.pointers k q.arena.length) k2 = some id
  rcases List.mem_append.mp hm2 with hmi | hlast
  · have hid : id < q.arena.length := hlt id hmi
    have hv2a : q.arena[id]? = some (k2, some v2) := by
      have h2 : (q.arena ++ [(k, some v)])[id]? = some (k2, some v2) := hv2
      rwa [List.getElem?_append_left hid] at h2
    have hlk := hs id hmi k2 v2 hv2a
    have hk2 : k2 ≠ k := by
      intro he
      rw [he, hfresh] at hlk
      cases hlk
    rw [lookupMap_mapInsert_ne _ _ hk2]
    exact hlk
  · have hid : id = q.arena.length := by simpa using hlast
    subst hid
    have hv2a : (q.arena ++ [(k, some v)])[q.arena.length]? =
        some (k, some v) := by
      rw [List.getElem?_append_right (le_refl _)]
      simp
    have hv2b : (q.arena ++ [(k, some v)])[q.arena.length]? =
        some (k2, some v2) := hv2
    have heq := hv2a.symm.trans hv2b
    simp at heq
    rw [← heq.1]
    exact lookupMap_mapInsert_self q.pointers k q.arena.length

theorem Sync_insertHead (q : Queue K V) (k : K) (v : V) (hinv : Inv q)
    (hfresh : lookupMap q.pointers k = none) (hs : Sync q) :
    Sync (q.insertHead k v) := by
  obtain ⟨hnd, hlt, hknd, hsound⟩ := hinv
  intro id hm k2 v2 hv2
  have hm2 : id ∈ q.arena.length :: q.items := hm
  show lookupMap (mapInsert q.pointers k q.arena.length) k2 = some id
  rcases List.mem_cons.mp hm2 with hlast | hmi
  · subst hlast
    have hv2a : (q.arena ++ [(k, some v)])[q.arena.length]? =
        some (k, some v) := by
      rw [List.getElem?_append_right (le_refl _)]
      simp
    have hv2b : (q.arena ++ [(k, some v)])[q.arena.length]? =
        some (k2, some v2) := hv2
    have heq := hv2a.symm.trans hv2b
    simp at heq
    rw [← heq.1]
    exact lookupMap_mapInsert_self q.pointers k q.arena.length
  · have hid : id < q.arena.length := hlt id hmi
    have hv2a : q.arena[id]? = some (k2, some v2) := by
      have h2 : (q.arena ++ [(k, some v)])[id]? = some (k2, some v2) := hv2
      rwa [List.getElem?_append_left hid] at h2
    have hlk := hs id hmi k2 v2 hv2a
    have hk2 : k2 ≠ k := by
      intro he
      rw [he, hfresh] at hlk
      cases hlk
    rw [lookupMap_mapInsert_ne _ _ hk2]
    exact hlk

theorem Sync_removeKey (q : Queue K V) (k : K) (hinv : Inv q) (hs : Sync q) :
    Sync (q.removeKey k).2 := by
  cases hlk : lookupMap q.pointers k with
  | none =>
      have he : (q.removeKey k).2 = q := by
        simp [Queue.removeKey, hlk]
      rw [he]
      exact hs
  | some id =>
      have he : (q.removeKey k).2 =
          ⟨clearVal q.arena id, q.items, mapErase q.pointers k⟩ := by
        simp [Queue.removeKey, hlk]
      rw [he]
      intro id2 hm k2 v2 hv2
      have hne : id2 ≠ id := by
        intro h2
        rw [h2, clearVal_getElem_self] at hv2
        rcases hg : q.arena[id]? with _ | e
        · rw [hg] at hv2
          cases hv2
        · rw [hg] at hv2
          simp at hv2
      rw [clearVal_getElem_ne _ hne] at hv2
      have hlk2 := hs id2 hm k2 v2 hv2
      have hk2 : k2 ≠ k := by
        intro he2
        rw [he2, hlk] at hlk2
        exact hne (Option.some.inj hlk2).symm
      show lookupMap (mapErase q.pointers k) k2 = some id2
      rw [lookupMap_mapErase_ne _ hk2]
      exact hlk2

theorem Sync_removeHead (q : Queue K V) (hinv : Inv q) (hs : Sync q) :
    Sync q.removeHead.2 :=
  popLoop_TSync q.items q.arena q.pointers hinv hs

theorem Sync_removeTail (q : Queue K V) (hinv : Inv q) (hs : Sync q) :
    Sync q.removeTail.2 :=
  TSync_reverse (popLoop_TSync q.items.reverse q.arena q.pointers
    (TInv_reverse hinv) (TSync_reverse hs))

theorem good_applyOp (q : Queue K V) (op : Op K V) (hinv : Inv q)
    (hs : Sync q) (hc : shadowFree q op = true) :
    Inv (applyOp q op) ∧ Sync (applyOp q op) := by
  cases op with
  | ins k v =>
      have hfresh : lookupMap q.pointers k = none := by
        simpa [shadowFree, Option.isNone_iff_eq_none] using hc
      exact ⟨Inv_insert q k v hinv, Sync_insert q k v hinv hfresh hs⟩
  | insHead k v =>
      have hfresh : lookupMap q.pointers k = none := by
        simpa [shadowFree, Option.isNone_iff_eq_none] using hc
      exact ⟨Inv_insertHead q k v hinv, Sync_insertHead q k v hinv hfresh hs⟩
  | remHead => exact ⟨Inv_removeHead q hinv, Sync_removeHead q hinv hs⟩
  | remTail => exact ⟨Inv_removeTail q hinv, Sync_removeTail q hinv hs⟩
  | remKey k => exact ⟨Inv_removeKey q k hinv, Sync_removeKey q k hinv hs⟩

theorem good_foldl (ops : List (Op K V)) :
    ∀ q, Inv q → Sync q → NoShadow q ops = true →
      Inv (List.foldl applyOp q ops) ∧ Sync (List.foldl applyOp q ops) := by
  induction ops with
  | nil => intro q hi hsy _; exact ⟨hi, hsy⟩
  | cons op rest ih =>
      intro q hi hsy hns
      have hns2 : shadowFree q op = true ∧
          NoShadow (applyOp q op) rest = true := by
        rw [NoShadow] at hns
        exact Bool.and_eq_true_iff.mp hns
      obtain ⟨hg1, hg2⟩ := good_applyOp q op hi hsy hns2.1
      exact ih (applyOp q op) hg1 hg2 hns2.2

theorem good_run (ops : List (Op K V)) (h : NoShadow Queue.new ops = true) :
    Inv (run ops) ∧ Sync (run ops) :=
  good_foldl ops Queue.new Inv_new Sync_new h

/-- On states satisfying both invariants, the size of the pointer map
equals the count of live physical entries: the two Nodup lists — map
values and live item ids — have the same members. -/
theorem len_eq_liveCount (q : Queue K V) (hinv : Inv q) (hs : Sync q) :
    q.len = liveCount q := by
  obtain ⟨hnd, hlt, hknd, hsound⟩ := hinv
  have hcount : liveCount q =
      (q.items.filter (fun id => (liveOut q.arena id).isSome)).length :=
    List.countP_eq_length_filter _ _
  have hlen : q.len = (q.pointers.map Prod.snd).length := by
    simp [Queue.len]
  have hndL : (q.items.filter (fun id => (liveOut q.arena id).isSome)).Nodup :=
    hnd.filter _
  have hptrN : q.pointers.Nodup := List.Nodup.of_map _ hknd
  have hndS : (q.pointers.map Prod.snd).Nodup := by
    refine List.Nodup.map_on ?_ hptrN
    intro e1 h1 e2 h2 hsnd
    obtain ⟨k1, id1⟩ := e1
    obtain ⟨k2, id2⟩ := e2
    simp only at hsnd
    subst hsnd
    have l1 : lookupMap q.pointers k1 = some id1 :=
      lookupMap_of_mem_of_nodup h1 hknd
    have l2 : lookupMap q.pointers k2 = some id1 :=
      lookupMap_of_mem_of_nodup h2 hknd
    obtain ⟨_, v1, hv1⟩ := hsound k1 id1 l1
    obtain ⟨_, v2, hv2⟩ := hsound k2 id1 l2
    have heq := hv1.symm.trans hv2
    simp at heq
    rw [heq.1]
  have hmem : ∀ x, x ∈ q.pointers.map Prod.snd ↔
      x ∈ q.items.filter (fun id => (liveOut q.arena id).isSome) := by
    intro x
    constructor
    · intro hx
      obtain ⟨e, he, hex⟩ := List.mem_map.mp hx
      obtain ⟨k1, id1⟩ := e
      simp only at hex
      subst hex
      have hl1 : lookupMap q.pointers k1 = some id1 :=
        lookupMap_of_mem_of_nodup he hknd
      obtain ⟨hmitems, v1, hv1⟩ := hsound k1 id1 hl1
      refine List.mem_filter.mpr ⟨hmitems, ?_⟩
      rw [liveOut_eq_some.mpr hv1]
      rfl
    · intro hx
      obtain ⟨hmitems, hlive⟩ := List.mem_filter.mp hx
      obtain ⟨⟨k1, v1⟩, hkv⟩ := Option.isSome_iff_exists.mp hlive
      have hv1 : q.arena[x]? = some (k1, some v1) := liveOut_eq_some.mp hkv
      have hlk := hs x hmitems k1 v1 hv1
      exact List.mem_map.mpr ⟨(k1, x), mem_of_lookupMap_some hlk, rfl⟩
  have h1 : (q.pointers.map Prod.snd).Subperm
      (q.items.filter (fun id => (liveOut q.arena id).isSome)) :=
    List.subperm_of_subset hndS (fun x hx => (hmem x).mp hx)
  have h2 : (q.items.filter (fun id => (liveOut q.arena id).isSome)).Subperm
      (q.pointers.map Prod.snd) :=
    List.subperm_of_subset hndL (fun x hx => (hmem x).mpr hx)
  rw [hlen, hcount]
  exact Nat.le_antisymm h1.length_le h2.length_le

theorem len_zero_of_removeHead_none (q : Queue K V) (hinv : Inv q)
    (h : q.removeHead.1 = none) : q.len = 0 := by
  have hdead := all_dead_of_popLoop_none
    (show (popLoop q.items q.arena q.pointers).1 = none from h)
  obtain ⟨hnd, hlt, hknd, hsound⟩ := hinv
  cases hp : q.pointers with
  | nil => simp [Queue.len, hp]
  | cons e rest =>
      exfalso
      obtain ⟨k1, id1⟩ := e
      have hlk : lookupMap q.pointers k1 = some id1 := by
        rw [hp]
        simp [lookupMap]
      obtain ⟨hm, v, hv⟩ := hsound k1 id1 hlk
      have hd := hdead id1 hm
      rw [liveOut_eq_some.mpr hv] at hd
      cases hd

theorem removeHead_none_of_len_zero (q : Queue K V) (hs : Sync q)
    (h : q.len = 0) : q.removeHead.1 = none := by
  have hptr : q.pointers = [] := List.length_eq_zero.mp h
  have hdead : ∀ id ∈ q.items, liveOut q.arena id = none := by
    intro id hm
    rcases hl : liveOut q.arena id with _ | ⟨k, v⟩
    · rfl
    · exfalso
      have hlk := hs id hm k v (liveOut_eq_some.mp hl)
      rw [hptr] at hlk
      cases hlk
  show (popLoop q.items q.arena q.pointers).1 = none
  rw [popLoop_all_dead q.pointers hdead]

end Invariants

/-! ### Queue-level corollaries -/

section QueueCorollaries

variable [DecidableEq K]

theorem removeHead_none_of_items_nil (q : Queue K V) (h : q.items = []) :
    q.removeHead.1 = none := by
  show (popLoop q.items q.arena q.pointers).1 = none
  rw [h]
  rfl

theorem removeTail_none_of_items_nil (q : Queue K V) (h : q.items = []) :
    q.removeTail.1 = none := by
  show (popLoop q.items.reverse q.arena q.pointers).1 = none
  rw [h]
  rfl

theorem drainHead_full (q : Queue K V) (hnd : q.items.Nodup) :
    (drainHead q.items.length q).1 = q.items.filterMap (liveOut q.arena) ∧
    (drainHead q.items.length q).2.items = [] := by
  obtain ⟨ar, its, ptr⟩ := q
  exact drainHead_spec its its.length ar ptr hnd le_rfl

theorem drainTail_full (q : Queue K V) (hnd : q.items.Nodup) :
    (drainTail q.items.length q).1 =
      q.items.reverse.filterMap (liveOut q.arena) ∧
    (drainTail q.items.length q).2.items = [] := by
  obtain ⟨ar, its, ptr⟩ := q
  exact drainTail_items its its.length ar ptr hnd le_rfl

theorem newWith_arena (pairs : List (K × V)) :
    (Queue.newWith pairs).arena = pairs.map (fun p => (p.1, some p.2)) := by
  rw [newWith_eq_insertAll, insertAll_arena]
  simp [Queue.new]

theorem newWith_items (pairs : List (K × V)) :
    (Queue.newWith pairs).items = List.range' 0 pairs.length := by
  rw [newWith_eq_insertAll, insertAll_items]
  simp [Queue.new]

theorem newWith_items_nodup (pairs : List (K × V)) :
    (Queue.newWith pairs).items.Nodup := by
  rw [newWith_items]
  exact List.nodup_range' 0 pairs.length

theorem newWith_drainHead (pairs : List (K × V)) :
    (drainHead (Queue.newWith pairs).items.length (Queue.newWith pairs)).1 =
      pairs ∧
    (drainHead (Queue.newWith pairs).items.length
      (Queue.newWith pairs)).2.items = [] := by
  have h := drainHead_full (Queue.newWith pairs) (newWith_items_nodup pairs)
  refine ⟨?_, h.2⟩
  rw [h.1, newWith_items, newWith_arena]
  refine filterMap_liveOut_slice pairs 0 _ (fun j hj => ?_)
  rw [Nat.zero_add]
  exact liveOut_map_live pairs j

theorem newWith_drainTail (pairs : List (K × V)) :
    (drainTail (Queue.newWith pairs).items.length (Queue.newWith pairs)).1 =
      pairs.reverse ∧
    (drainTail (Queue.newWith pairs).items.length
      (Queue.newWith pairs)).2.items = [] := by
  have h := drainTail_full (Queue.newWith pairs) (newWith_items_nodup pairs)
  refine ⟨?_, h.2⟩
  rw [h.1, newWith_items, newWith_arena, List.filterMap_reverse]
  congr 1
  refine filterMap_liveOut_slice pairs 0 _ (fun j hj => ?_)
  rw [Nat.zero_add]
  exact liveOut_map_live pairs j

end QueueCorollaries

/-! ### Helper lemmas for the LRU `get` contract -/

section LruHelpers

variable [DecidableEq K]

theorem Queue.removeHead_mk (ar : List (K × Option V)) (its : List Nat)
    (ptr : List (K × Nat)) :
    (Queue.mk ar its ptr).removeHead =
      ((popLoop its ar ptr).1,
        ⟨(popLoop its ar ptr).2.1, (popLoop its ar ptr).2.2.1,
          (popLoop its ar ptr).2.2.2⟩) := rfl

theorem LQueue.removeHead_eq (q : LQueue K V) :
    q.removeHead = (q.inner.removeHead.1, ⟨q.inner.removeHead.2⟩) := rfl

theorem LQueue.get_eq (q : LQueue K V) (k : K) :
    q.get k = match q.inner.removeKey k with
      | (none, q2) => (none, ⟨q2⟩)
      | (some v, q2) => (some v, ⟨Queue.insert q2 k v⟩) := rfl

/-- When `k` is mapped to a live entry, `get` extracts the value by key and
re-inserts the same pair at the tail. -/
theorem lru_get_present (q : LQueue K V) (k : K) (id : Nat) (v : V)
    (hlk : lookupMap q.inner.pointers k = some id)
    (hv : q.inner.arena[id]? = some (k, some v)) :
    q.get k = (some v, ⟨((q.inner.removeKey k).2).insert k v⟩) := by
  have h1 : q.inner.removeKey k =
      (some v, ⟨clearVal q.inner.arena id, q.inner.items,
        mapErase q.inner.pointers k⟩) := by
    simp [Queue.removeKey, hlk, hv]
  rw [LQueue.get_eq, h1]

/-- When `k` is absent from the map, `get` returns `none` and the queue is
unchanged. -/
theorem lru_get_absent (q : LQueue K V) (k : K)
    (h : lookupMap q.inner.pointers k = none) : q.get k = (none, q) := by
  have h1 : q.inner.removeKey k = (none, q.inner) := by
    simp [Queue.removeKey, h]
  rw [LQueue.get_eq, h1]

end LruHelpers

/-! ### The claims -/

section Claims

variable [DecidableEq K]

/-- C1: evaluation of the model at the failing input.  The source of
`lru::Queue::insert_head` delegates to the inner tail `insert`, so after
`insert_head(1,10)` then `insert_head(2,20)` on an empty LRU queue the drain
via `remove_head` yields key 1 before key 2 — the claim requires key 2
first (head-prepend semantics identical to the addressable queue's
`insert_head`).  The third conjunct shows the state equals two tail
inserts. -/
theorem lru_insertHead_appends_at_tail :
    (((LQueue.new.insertHead 1 10).insertHead 2 20 :
        LQueue Nat Nat)).removeHead.1 = some (1, 10) ∧
    ((((LQueue.new.insertHead 1 10).insertHead 2 20 :
        LQueue Nat Nat)).removeHead.2).removeHead.1 = some (2, 20) ∧
    ((LQueue.new.insertHead 1 10).insertHead 2 20 : LQueue Nat Nat).inner =
      (Queue.new.insert 1 10).insert 2 20 := by decide

/-- C2, counterexample: the key 0 is present (live) before the second
`insert`, yet after `insert(0,20)` the old physical slot 0 still holds
`some 10` — it is not tombstoned — and both physical entries are live. -/
theorem insert_existing_key_no_tombstone_cex :
    lookupMap (Queue.new.insert (0 : Nat) (10 : Nat)).pointers 0 = some 0 ∧
    ((Queue.new.insert (0 : Nat) (10 : Nat)).insert 0 20).arena[0]? =
      some (0, some 10) ∧
    liveCount ((Queue.new.insert (0 : Nat) (10 : Nat)).insert 0 20) = 2 := by
  decide

/-- C2, amended: `insert(k,v)` never tombstones any existing physical slot —
every previously live entry stays live verbatim; only the pointer map is
redirected: the key `k` now maps to the fresh tail entry and all other keys
are unchanged. -/
theorem insert_leaves_old_slot_live (q : Queue K V) (k : K) (v : V) :
    (∀ (id : Nat) (k0 : K) (v0 : V), q.arena[id]? = some (k0, some v0) →
      (q.insert k v).arena[id]? = some (k0, some v0)) ∧
    (q.insert k v).items = q.items ++ [q.arena.length] ∧
    lookupMap (q.insert k v).pointers k = some q.arena.length ∧
    (∀ k2, k2 ≠ k →
      lookupMap (q.insert k v).pointers k2 = lookupMap q.pointers k2) := by
  refine ⟨?_, rfl, lookupMap_mapInsert_self _ _ _,
    fun k2 h => lookupMap_mapInsert_ne _ _ h⟩
  intro id k0 v0 h0
  have hid : id < q.arena.length := by
    by_contra hge
    rw [List.getElem?_eq_none (by omega)] at h0
    cases h0
  show (q.arena ++ [(k, some v)])[id]? = some (k0, some v0)
  rw [List.getElem?_append_left hid]
  exact h0

/-- Witness for the amended C2 at a concrete shadowing input. -/
theorem insert_leaves_old_slot_live_witness :
    ((Queue.new.insert (1 : Nat) (10 : Nat)).insert 1 20).arena[0]? =
      some (1, some 10) ∧
    lookupMap ((Queue.new.insert (1 : Nat) (10 : Nat)).insert 1 20).pointers
        2 = lookupMap (Queue.new.insert (1 : Nat) (10 : Nat)).pointers 2 := by
  have h := insert_leaves_old_slot_live
    (Queue.new.insert (1 : Nat) (10 : Nat)) 1 20
  exact ⟨h.1 0 1 10 (by decide), h.2.2.2 2 (by decide)⟩

/-- C3, counterexample: after `insert(0,10); insert(0,20)` the map size
(`len`) is 1 but the ordered sequence contains 2 live (non-tombstoned)
physical entries — re-insertion does not tombstone the shadowed slot. -/
theorem len_ne_liveCount_after_shadow_cex :
    (run [Op.ins (0 : Nat) (10 : Nat), Op.ins 0 20]).len = 1 ∧
    liveCount (run [Op.ins (0 : Nat) (10 : Nat), Op.ins 0 20]) = 2 := by
  decide

/-- C3, amended: for every operation sequence in which no `insert` /
`insert_head` uses a key currently present in the map (`NoShadow`), `len()`
— the size of the key mapping — equals the number of live (non-tombstoned)
physical entries of the ordered sequence. -/
theorem len_eq_liveCount_noShadow (ops : List (Op K V))
    (h : NoShadow Queue.new ops = true) :
    (run ops).len = liveCount (run ops) := by
  obtain ⟨hi, hs⟩ := good_run ops h
  exact len_eq_liveCount _ hi hs

/-- Witness for the amended C3 on a concrete shadow-free trace. -/
theorem len_eq_liveCount_noShadow_witness :
    NoShadow Queue.new
      [Op.ins (1 : Nat) (2 : Nat), Op.ins 3 4, Op.remKey 1] = true ∧
    (run [Op.ins (1 : Nat) (2 : Nat), Op.ins 3 4, Op.remKey 1]).len =
      liveCount (run [Op.ins (1 : Nat) (2 : Nat), Op.ins 3 4, Op.remKey 1]) :=
  ⟨by decide, len_eq_liveCount_noShadow _ (by decide)⟩

/-- C4: the LRU access operation (`get`).  If `k` is mapped to a live entry
with value `v`, `get` returns `v` and the new state is the by-key removal
followed by a tail re-insertion of `(k, v)` (the entry moves to the
most-recently-used position); if `k` is absent, it returns `none` and the
queue is unchanged.  In particular, for distinct keys `a ≠ b`, after
`insert(a,v1)`, `insert(b,v2)` and `get a`, draining by `remove_head`
yields `(b,v2)` before `(a,v1)`. -/
theorem lru_get_contract (q : LQueue K V) (k : K) :
    (∀ (id : Nat) (v : V), lookupMap q.inner.pointers k = some id →
      q.inner.arena[id]? = some (k, some v) →
      q.get k = (some v, ⟨((q.inner.removeKey k).2).insert k v⟩)) ∧
    (lookupMap q.inner.pointers k = none → q.get k = (none, q)) ∧
    (∀ (a b : K) (v1 v2 : V), a ≠ b →
      (((LQueue.new.insert a v1).insert b v2).get a).1 = some v1 ∧
      ((((LQueue.new.insert a v1).insert b v2).get a).2).removeHead.1 =
        some (b, v2) ∧
      (((((LQueue.new.insert a v1).insert b v2).get a).2).removeHead.2
        ).removeHead.1 = some (a, v1)) := by
  refine ⟨fun id v hlk hv => lru_get_present q k id v hlk hv,
    fun h => lru_get_absent q k h, ?_⟩
  intro a b v1 v2 hab
  have hba : ¬(b = a) := fun he => hab he.symm
  have hab2 : ¬(a = b) := hab
  have hQ : ((LQueue.new.insert a v1).insert b v2 : LQueue K V).inner =
      ⟨[(a, some v1), (b, some v2)], [0, 1], [(b, 1), (a, 0)]⟩ := by
    simp [LQueue.new, LQueue.insert, Queue.new, Queue.insert, mapInsert,
      mapErase, hab2]
  have hlk : lookupMap
      ((LQueue.new.insert a v1).insert b v2 : LQueue K V).inner.pointers a =
      some 0 := by
    rw [hQ]
    simp [lookupMap, hba]
  have hv : ((LQueue.new.insert a v1).insert b v2 :
      LQueue K V).inner.arena[0]? = some (a, some v1) := by
    rw [hQ]
    rfl
  have hget := lru_get_present ((LQueue.new.insert a v1).insert b v2) a 0 v1
    hlk hv
  have hrk : ((((LQueue.new.insert a v1).insert b v2) :
      LQueue K V).inner.removeKey a).2 =
      ⟨[(a, none), (b, some v2)], [0, 1], [(b, 1)]⟩ := by
    rw [Queue.removeKey, hlk, hQ]
    simp [clearVal, mapErase, hba]
  have hstate : ((((LQueue.new.insert a v1).insert b v2).get a).2 :
      LQueue K V).inner =
      ⟨[(a, none), (b, some v2), (a, some v1)], [0, 1, 2], [(a, 2), (b, 1)]⟩
      := by
    rw [hget]
    show ((((LQueue.new.insert a v1).insert b v2 :
      LQueue K V).inner.removeKey a).2.insert a v1) = _
    rw [hrk]
    simp [Queue.insert, mapInsert, mapErase, hba]
  have hrh1 : ((((LQueue.new.insert a v1).insert b v2).get a).2 :
      LQueue K V).removeHead =
      (some (b, v2), ⟨⟨[(a, none), (b, none), (a, some v1)], [2],
        [(a, 2)]⟩⟩) := by
    rw [LQueue.removeHead_eq, hstate, Queue.removeHead_mk]
    simp [popLoop, clearVal, mapErase, hab2]
  refine ⟨by rw [hget], by rw [hrh1], ?_⟩
  rw [hrh1]
  simp only [LQueue.removeHead_eq, Queue.removeHead_mk]
  simp [popLoop]

/-- Witness for C4 at concrete inputs: present access on a two-entry queue
(the re-insert state), absent access unchanged, and the concrete LRU
scenario. -/
theorem lru_get_contract_witness :
    (((LQueue.new.insert (0 : Nat) (1 : Nat)).insert 1 2).get 0 =
      (some 1, ⟨(((LQueue.new.insert (0 : Nat) (1 : Nat)).insert
        1 2).inner.removeKey 0).2.insert 0 1⟩)) ∧
    (((LQueue.new.insert (0 : Nat) (1 : Nat)).insert 1 2).get 5 =
      (none, (LQueue.new.insert (0 : Nat) (1 : Nat)).insert 1 2)) ∧
    ((((LQueue.new.insert (0 : Nat) (1 : Nat)).insert 1 2).get 0).2
      ).removeHead.1 = some (1, 2) := by
  have h1 := (lru_get_contract ((LQueue.new.insert (0 : Nat) (1 : Nat)
    ).insert 1 2) 0).1 0 1 (by decide) (by decide)
  have h2 := (lru_get_contract ((LQueue.new.insert (0 : Nat) (1 : Nat)
    ).insert 1 2) 5).2.1 (by decide)
  have h3 := ((lru_get_contract ((LQueue.new.insert (0 : Nat) (1 : Nat)
    ).insert 1 2) 0).2.2 0 1 1 2 (by decide)).2.1
  exact ⟨h1, h2, h3⟩

/-- C5: for any list of pairs tail-inserted into a fresh queue (via
`new_with`, i.e. repeated `insert`) with no intervening removals, repeated
`remove_head` returns the pairs first-to-last and then `none`, and repeated
`remove_tail` returns them last-to-first and then `none`. -/
theorem fifo_drain_order (pairs : List (K × V)) :
    (drainHead (Queue.newWith pairs).items.length (Queue.newWith pairs)).1 =
      pairs ∧
    ((drainHead (Queue.newWith pairs).items.length
      (Queue.newWith pairs)).2).removeHead.1 = none ∧
    (drainTail (Queue.newWith pairs).items.length (Queue.newWith pairs)).1 =
      pairs.reverse ∧
    ((drainTail (Queue.newWith pairs).items.length
      (Queue.newWith pairs)).2).removeTail.1 = none := by
  obtain ⟨h1, h2⟩ := newWith_drainHead pairs
  obtain ⟨h3, h4⟩ := newWith_drainTail pairs
  exact ⟨h1, removeHead_none_of_items_nil _ h2, h3,
    removeTail_none_of_items_nil _ h4⟩

/-- C6: `into_vec` applied to `new_with(pairs)` with pairwise-distinct keys
(and no other operations in between) returns exactly `pairs` in order.
(The proof does not even need the distinctness hypothesis.) -/
theorem newWith_intoVec_roundtrip (pairs : List (K × V))
    (h : (pairs.map Prod.fst).Nodup) :
    (Queue.newWith pairs).intoVec = pairs :=
  (newWith_drainHead pairs).1

/-- Witness for C6 at the concrete pairs of the crate's doc tests. -/
theorem newWith_intoVec_roundtrip_witness :
    ((([((2 : Nat), (4 : Nat)), (3, 6), (4, 8)]).map Prod.fst).Nodup) ∧
    (Queue.newWith [((2 : Nat), (4 : Nat)), (3, 6), (4, 8)]).intoVec =
      [(2, 4), (3, 6), (4, 8)] :=
  ⟨by decide, newWith_intoVec_roundtrip _ (by decide)⟩

/-- C7, counterexample: a reachable state (built by `insert(0,10);
insert(0,20); remove_head()`) with `len() = 0` on which `remove_head`
nevertheless returns an entry — the converse direction of the claim fails
because the first `remove_head` popped the shadowed old entry and deleted
the map pointer of the still-live new entry. -/
theorem removeHead_some_with_len_zero_cex :
    (run [Op.ins (0 : Nat) (10 : Nat), Op.ins 0 20, Op.remHead]).len = 0 ∧
    ((run [Op.ins (0 : Nat) (10 : Nat), Op.ins 0 20,
      Op.remHead]).removeHead).1 = some (0, 20) := by decide

/-- C7, amended: on every reachable state, if `remove_head` returns `none`
then `len() = 0`; the converse (`len() = 0` implies `remove_head` returns
`none`) holds for every shadow-free operation sequence. -/
theorem removeHead_none_len_zero_amended (ops : List (Op K V)) :
    ((run ops).removeHead.1 = none → (run ops).len = 0) ∧
    (NoShadow Queue.new ops = true → (run ops).len = 0 →
      (run ops).removeHead.1 = none) :=
  ⟨fun h => len_zero_of_removeHead_none _ (Inv_run ops) h,
   fun hns h => removeHead_none_of_len_zero _ (good_run ops hns).2 h⟩

/-- Witness for the amended C7 on the empty trace. -/
theorem removeHead_none_len_zero_amended_witness :
    (run ([] : List (Op Nat Nat))).len = 0 ∧
    (run ([] : List (Op Nat Nat))).removeHead.1 = none :=
  ⟨(removeHead_none_len_zero_amended []).1 (by decide),
   (removeHead_none_len_zero_amended []).2 (by decide) (by decide)⟩

/-- C8: by-key removal semantics.  If `k` is live (mapped to an entry whose
value is present), the first `remove_key(k)` returns its value and an
immediately following `remove_key(k)` returns `none`; if `k` is not present
in the mapping, `remove_key(k)` returns `none` and leaves the whole
container state unchanged. -/
theorem removeKey_absence_semantics (q : Queue K V) (k : K) :
    (∀ (id : Nat) (v : V), lookupMap q.pointers k = some id →
      q.arena[id]? = some (k, some v) →
      (q.removeKey k).1 = some v ∧
      ((q.removeKey k).2.removeKey k).1 = none) ∧
    (lookupMap q.pointers k = none → q.removeKey k = (none, q)) := by
  constructor
  · intro id v hlk hv
    have h1 : q.removeKey k = (some v,
        ⟨clearVal q.arena id, q.items, mapErase q.pointers k⟩) := by
      simp [Queue.removeKey, hlk, hv]
    refine ⟨by rw [h1], ?_⟩
    rw [h1]
    show ((Queue.mk (clearVal q.arena id) q.items
      (mapErase q.pointers k)).removeKey k).1 = none
    simp [Queue.removeKey, lookupMap_mapErase_self]
  · intro h
    simp [Queue.removeKey, h]

/-- Witness for C8 at a concrete state. -/
theorem removeKey_absence_semantics_witness :
    ((Queue.new.insert (1 : Nat) (2 : Nat)).removeKey 1).1 = some 2 ∧
    (((Queue.new.insert (1 : Nat) (2 : Nat)).removeKey 1).2.removeKey 1).1 =
      none ∧
    (Queue.new.insert (1 : Nat) (2 : Nat)).removeKey 3 =
      (none, Queue.new.insert 1 2) := by
  have h1 := (removeKey_absence_semantics
    (Queue.new.insert (1 : Nat) (2 : Nat)) 1).1 0 2 (by decide) (by decide)
  have h2 := (removeKey_absence_semantics
    (Queue.new.insert (1 : Nat) (2 : Nat)) 3).2 (by decide)
  exact ⟨h1.1, h1.2, h2⟩

/-- C9: removing a middle key from a queue built by tail-inserts of
pairwise-distinct keys returns its value and does not disturb the relative
order of the remaining pairs, as observed both by repeated `remove_head`
(first-to-last) and by repeated `remove_tail` (last-to-first). -/
theorem removeKey_preserves_drain_order (pairs : List (K × V)) (i : Nat)
    (hi : i < pairs.length) (hk : (pairs.map Prod.fst).Nodup) :
    ((Queue.newWith pairs).removeKey (pairs[i].1)).1 = some (pairs[i].2) ∧
    (drainHead (((Queue.newWith pairs).removeKey
        (pairs[i].1)).2).items.length
      (((Queue.newWith pairs).removeKey (pairs[i].1)).2)).1 =
      pairs.take i ++ pairs.drop (i + 1) ∧
    (drainTail (((Queue.newWith pairs).removeKey
        (pairs[i].1)).2).items.length
      (((Queue.newWith pairs).removeKey (pairs[i].1)).2)).1 =
      (pairs.take i ++ pairs.drop (i + 1)).reverse := by
  have hlk : lookupMap (Queue.newWith pairs).pointers pairs[i].1 =
      some i := by
    have h := insertAll_lookup_nodup pairs Queue.new i hi hk
    rw [newWith_eq_insertAll]
    simpa [Queue.new] using h
  have harena_i : (Queue.newWith pairs).arena[i]? =
      some (pairs[i].1, some (pairs[i].2)) := by
    rw [newWith_arena, List.getElem?_map, List.getElem?_eq_getElem hi]
    rfl
  have hrk : (Queue.newWith pairs).removeKey (pairs[i].1) =
      (some (pairs[i].2),
        ⟨clearVal (Queue.newWith pairs).arena i, (Queue.newWith pairs).items,
          mapErase (Queue.newWith pairs).pointers (pairs[i].1)⟩)
      := by
    simp [Queue.removeKey, hlk, harena_i]
  have hfm : (List.range' 0 pairs.length).filterMap
      (liveOut (clearVal (pairs.map (fun p => (p.1, some p.2))) i)) =
      pairs.take i ++ pairs.drop (i + 1) := by
    have h2 := List.range'_append_1 0 i (pairs.length - i)
    simp only [Nat.zero_add] at h2
    rw [show pairs.length - i + i = pairs.length by omega] at h2
    have h3 : List.range' i (pairs.length - i) =
        i :: List.range' (i + 1) (pairs.length - i - 1) := by
      have hm : pairs.length - i = (pairs.length - i - 1) + 1 := by omega
      conv_lhs => rw [hm]
      rw [List.range'_succ]
    rw [← h2, h3, List.filterMap_append,
      List.filterMap_cons_none (liveOut_clearVal_self _ i)]
    congr 1
    · have hlen : (pairs.take i).length = i := by
        rw [List.length_take]
        omega
      rw [show List.range' 0 i = List.range' 0 (pairs.take i).length by
        rw [hlen]]
      refine filterMap_liveOut_slice (pairs.take i) 0 _ (fun j hj => ?_)
      have hjlen : j < i ∧ j < pairs.length := by
        rw [hlen] at hj
        omega
      rw [Nat.zero_add, liveOut_clearVal_ne _ (show j ≠ i by omega),
        liveOut_map_live, List.getElem?_take_of_lt hjlen.1]
    · have hlen2 : (pairs.drop (i + 1)).length = pairs.length - i - 1 := by
        rw [List.length_drop]
        omega
      rw [show List.range' (i + 1) (pairs.length - i - 1) =
        List.range' (i + 1) (pairs.drop (i + 1)).length by rw [hlen2]]
      refine filterMap_liveOut_slice (pairs.drop (i + 1)) (i + 1) _
        (fun j hj => ?_)
      rw [liveOut_clearVal_ne _ (show i + 1 + j ≠ i by omega),
        liveOut_map_live, List.getElem?_drop]
  have hq2items : ((Queue.newWith pairs).removeKey
      (pairs[i].1)).2.items = List.range' 0 pairs.length := by
    rw [hrk]
    exact newWith_items pairs
  have hq2arena : ((Queue.newWith pairs).removeKey
      (pairs[i].1)).2.arena =
      clearVal (pairs.map (fun p => (p.1, some p.2))) i := by
    rw [hrk]
    show clearVal (Queue.newWith pairs).arena i = _
    rw [newWith_arena]
  have hnd2 : ((Queue.newWith pairs).removeKey
      (pairs[i].1)).2.items.Nodup := by
    rw [hq2items]
    exact List.nodup_range' 0 pairs.length
  have hH := drainHead_full _ hnd2
  have hT := drainTail_full _ hnd2
  refine ⟨by rw [hrk], ?_, ?_⟩
  · rw [hH.1, hq2items, hq2arena]
    exact hfm
  · rw [hT.1, hq2items, hq2arena, List.filterMap_reverse, hfm]

/-- Witness for C9 at the concrete scenario of the spec: insert
(2,4),(3,6),(4,8), remove key 3 (value 6), drain yields (2,4),(4,8). -/
theorem removeKey_preserves_drain_order_witness :
    (1 < ([((2 : Nat), (4 : Nat)), (3, 6), (4, 8)]).length ∧
      ((([((2 : Nat), (4 : Nat)), (3, 6), (4, 8)]).map Prod.fst).Nodup)) ∧
    ((Queue.newWith [((2 : Nat), (4 : Nat)), (3, 6), (4, 8)]).removeKey
      3).1 = some 6 ∧
    (drainHead (((Queue.newWith [((2 : Nat), (4 : Nat)), (3, 6),
        (4, 8)]).removeKey 3).2).items.length
      (((Queue.newWith [((2 : Nat), (4 : Nat)), (3, 6),
        (4, 8)]).removeKey 3).2)).1 = [(2, 4), (4, 8)] := by
  have h := removeKey_preserves_drain_order
    [((2 : Nat), (4 : Nat)), (3, 6), (4, 8)] 1 (by decide) (by decide)
  exact ⟨⟨by decide, by decide⟩, h.1, h.2.1⟩

/-- C10: on every reachable state, an item-list entry holding a live value
occurs nowhere else in the item list, and once its key is removed from the
pointer map no map entry references it — so when `remove_head` /
`remove_tail` pops it, the popped handle is the unique remaining reference
and the internal `Arc::try_unwrap(...).ok().unwrap()` and the value
`unwrap()` cannot panic. -/
theorem popped_live_entry_unique_ref (ops : List (Op K V)) :
    ∀ (pre : List Nat) (id : Nat) (post : List Nat),
      (run ops).items = pre ++ id :: post →
      ∀ (k : K) (v : V), (run ops).arena[id]? = some (k, some v) →
        (id ∉ pre ∧ id ∉ post) ∧
        ∀ k2, lookupMap (mapErase (run ops).pointers k) k2 ≠ some id := by
  intro pre id post hitems k v hv
  obtain ⟨hnd, hlt, hknd, hsound⟩ := Inv_run ops
  rw [hitems] at hnd
  constructor
  · constructor
    · intro hm
      have hdisj := (List.nodup_append.mp hnd).2.2
      exact hdisj hm (List.mem_cons_self id post)
    · intro hm
      have hnd2 := (List.nodup_append.mp hnd).2.1
      exact (List.nodup_cons.mp hnd2).1 hm
  · intro k2 hlk
    by_cases hk2 : k2 = k
    · rw [hk2, lookupMap_mapErase_self] at hlk
      cases hlk
    · rw [lookupMap_mapErase_ne _ hk2] at hlk
      obtain ⟨hm, v2, hv2⟩ := hsound k2 id hlk
      have heq := hv.symm.trans hv2
      simp at heq
      exact hk2 heq.1.symm

/-- Witness for C10 at a one-insert trace. -/
theorem popped_live_entry_unique_ref_witness :
    ((0 ∉ ([] : List Nat) ∧ 0 ∉ ([] : List Nat)) ∧
      lookupMap (mapErase (run [Op.ins (1 : Nat) (2 : Nat)]).pointers 1) 5 ≠
        some 0) := by
  have h := popped_live_entry_unique_ref [Op.ins (1 : Nat) (2 : Nat)]
    [] 0 [] (by decide) 1 2 (by decide)
  exact ⟨h.1, h.2 5⟩

end Claims

end AQ
